import Mathlib

/-!
Shallow embedding of the UK sponsored-lookup core (sponsor_lookup.py and
api.py): text normalization, the indexed registry, the four-stage fuzzy
search, result deduplication, and company-name extraction from URLs.
Strings are embedded as lists of characters and Python floats as rationals
(every score the code manipulates — the constants 1.0, 0.9, 0.85, 0.75, 0.7
and the Jaccard quotients — is exactly representable, and Python compares
them exactly, so the rational embedding preserves every comparison).
Rational constants are written with Rat.divInt, the exact quotient of two
integers.
-/

namespace SponsorLookup

abbrev Str := List Char

def strL (s : String) : Str := s.data

/-- Python whitespace test (the regex class backslash-s), ASCII fragment. -/
def pyIsSpace (c : Char) : Bool := c.isWhitespace

/-- Python word-character test (the regex class backslash-w), ASCII fragment. -/
def isWordChar (c : Char) : Bool := c.isAlphanum || c == '_'

/-- Helper for splitWs: accumulates the current word (reversed). -/
def splitWsAux : Str → Str → List Str
  | [], acc => if acc.isEmpty then [] else [acc.reverse]
  | c :: cs, acc =>
    if pyIsSpace c then
      if acc.isEmpty then splitWsAux cs [] else acc.reverse :: splitWsAux cs []
    else splitWsAux cs (c :: acc)

/-- Python str.split() with no separator: maximal runs of non-whitespace. -/
def splitWs (s : Str) : List Str := splitWsAux s []

/-- Joins words with single blanks. -/
def joinWords : List Str → Str
  | [] => []
  | [w] => w
  | w :: ws => w ++ ' ' :: joinWords ws

/-- FastSponsorLookup._normalize: lowercase, drop characters that are neither
word characters nor whitespace, collapse whitespace runs to single blanks and
trim the ends.  The last two steps (the re.sub replacing each whitespace run
by one blank, followed by strip) are realized by splitting on whitespace and
joining the words with single blanks, which yields the identical string. -/
def normalize (text : Str) : Str :=
  joinWords (splitWs ((text.map Char.toLower).filter (fun c => isWordChar c || pyIsSpace c)))

/-- Python str.startswith: does s start with pat? -/
def pyStartsWith : Str → Str → Bool
  | [], _ => true
  | _ :: _, [] => false
  | a :: as, b :: bs => a == b && pyStartsWith as bs

/-- The Python containment test (x in y) on strings. -/
def pyIn (pat : Str) : Str → Bool
  | [] => pat.isEmpty
  | s@(_ :: rest) => pyStartsWith pat s || pyIn pat rest

/-- Helper for dedupList. -/
def dedupAux : List Str → List Str → List Str
  | [], _ => []
  | x :: xs, seen => if x ∈ seen then dedupAux xs seen else x :: dedupAux xs (x :: seen)

/-- Python set(...) of a list of words, as the list of first occurrences. -/
def dedupList (l : List Str) : List Str := dedupAux l []

/-- One sponsor record, as built by FastSponsorLookup._load_data. -/
structure Sponsor where
  name : Str
  city : Str
  county : Str
  rating : Str
  route : Str
deriving DecidableEq

instance : Inhabited Sponsor := ⟨⟨[], [], [], [], []⟩⟩

/-- The in-memory state of FastSponsorLookup: the record list, the mapping
from normalized full name to its records, and the inverted word index.
Python dicts preserve insertion order, so both mappings are embedded as
association lists in insertion order; the word-index values are Python sets,
embedded as duplicate-free lists. -/
structure FastSponsorLookup where
  sponsors : List Sponsor
  name_to_sponsors : List (Str × List Sponsor)
  word_index : List (Str × List Str)
deriving DecidableEq

/-- Dictionary access d[k] (as an option). -/
def lookupAssoc {α : Type} : List (Str × α) → Str → Option α
  | [], _ => none
  | (k, v) :: rest, key => if k = key then some v else lookupAssoc rest key

/-- Appends v to the list stored under k, creating the key at the end of the
dictionary when it is new (Python dict insertion order). -/
def assocAppend {α : Type} : List (Str × List α) → Str → α → List (Str × List α)
  | [], k, v => [(k, [v])]
  | (k1, vs) :: rest, k, v =>
    if k1 = k then (k1, vs ++ [v]) :: rest else (k1, vs) :: assocAppend rest k v

/-- Adds v to the set stored under k (set semantics: no duplicates). -/
def assocAddSet : List (Str × List Str) → Str → Str → List (Str × List Str)
  | [], k, v => [(k, [v])]
  | (k1, vs) :: rest, k, v =>
    if k1 = k then (if v ∈ vs then (k1, vs) :: rest else (k1, vs ++ [v]) :: rest)
    else (k1, vs) :: assocAddSet rest k v

/-- Python str.strip(): remove leading and trailing whitespace. -/
def pyStrip (s : Str) : Str :=
  ((s.dropWhile pyIsSpace).reverse.dropWhile pyIsSpace).reverse

/-- Python strip applied with the double-quote character. -/
def stripQuotes (s : Str) : Str :=
  ((s.dropWhile (fun c => c == '"')).reverse.dropWhile (fun c => c == '"')).reverse

/-- One raw CSV row of the registry source (the five columns the loader
reads; a missing column is the empty string, as dict.get defaults it). -/
structure Row where
  orgName : Str
  town : Str
  county : Str
  rating : Str
  route : Str

/-- The per-row body of the FastSponsorLookup._load_data loop: trim the
organisation name, skip the row when it is empty, otherwise append the
record, index it under its normalized name, and index every word of the
normalized name that is longer than 2 characters. -/
def loadStep (lk : FastSponsorLookup) (row : Row) : FastSponsorLookup :=
  let org := stripQuotes (pyStrip row.orgName)
  if org = [] then lk
  else
    let sp : Sponsor :=
      ⟨org, stripQuotes (pyStrip row.town), stripQuotes (pyStrip row.county),
        stripQuotes (pyStrip row.rating), stripQuotes (pyStrip row.route)⟩
    let nrm := normalize org
    ⟨lk.sponsors ++ [sp],
      assocAppend lk.name_to_sponsors nrm sp,
      (splitWs nrm).foldl
        (fun wi w => if 2 < w.length then assocAddSet wi w nrm else wi)
        lk.word_index⟩

/-- FastSponsorLookup._load_data over an already-parsed row list. -/
def load (rows : List Row) : FastSponsorLookup :=
  rows.foldl loadStep ⟨[], [], []⟩

/-- The Jaccard quotient over two duplicate-free word lists: size of the
intersection over size of the union, 0.0 when either list is empty (and on
the unreachable guard of a zero-size union). -/
def jaccard (aw bw : List Str) : ℚ :=
  if aw.isEmpty || bw.isEmpty then 0
  else if 0 < (aw ++ bw.filter (fun w => w ∉ aw)).length then
    Rat.divInt ((aw.filter (fun w => w ∈ bw)).length) ((aw ++ bw.filter (fun w => w ∉ aw)).length)
  else 0

/-- FastSponsorLookup._simple_similarity: the Jaccard index of the two word
sets of the normalized inputs. -/
def simple_similarity (a b : Str) : ℚ :=
  jaccard (dedupList (splitWs (normalize a))) (dedupList (splitWs (normalize b)))

/-- The boost body of search stage 4 for one query-token and name-token
pair: raise the score to 0.7 on a shared word beginning, then to 0.75 when
a query token of length at least 3 occurs inside the name token. -/
def boostStep (qt : Str) (s : ℚ) (nt : Str) : ℚ :=
  if 3 ≤ qt.length && pyIn qt nt then
    max (if pyStartsWith qt nt || pyStartsWith nt qt then max s (Rat.divInt 7 10) else s)
      (Rat.divInt 3 4)
  else if pyStartsWith qt nt || pyStartsWith nt qt then max s (Rat.divInt 7 10) else s

/-- The inner boost loop over all name tokens for one query token. -/
def boostInner (qt : Str) (nts : List Str) (s : ℚ) : ℚ :=
  nts.foldl (boostStep qt) s

/-- The full stage-4 score of one candidate name: Jaccard base similarity,
then the nested boost loops over the token sets of the query and the name. -/
def scoreCandidate (qn name : Str) : ℚ :=
  (dedupList (splitWs qn)).foldl
    (fun s qt => boostInner qt (dedupList (splitWs name)) s)
    (simple_similarity qn name)

/-- Search stage 1 (exact match): append each record under the normalized
query at score 1.0, skipping a record whose (original) name string was
already seen; the original name, not the normalized one, is added to seen.
Returns the appended results and the final seen set. -/
def stage1 : List Sponsor → List Str → List (Sponsor × ℚ) × List Str
  | [], seen => ([], seen)
  | sp :: rest, seen =>
    if sp.name ∈ seen then stage1 rest seen
    else
      ((sp, 1) :: (stage1 rest (seen ++ [sp.name])).1, (stage1 rest (seen ++ [sp.name])).2)

/-- Search stage 2 (substring match) over the name dictionary in insertion
order: a name not yet seen scores 0.9 when the normalized query occurs in
it, else 0.85 when it occurs in a normalized query longer than 5 characters;
all records of a scored name are appended and the name is added to seen. -/
def stage2 (qn : Str) : List (Str × List Sponsor) → List Str → List (Sponsor × ℚ) × List Str
  | [], seen => ([], seen)
  | (name, group) :: rest, seen =>
    if name ∈ seen then stage2 qn rest seen
    else if pyIn qn name then
      (group.map (fun r => (r, Rat.divInt 9 10)) ++ (stage2 qn rest (seen ++ [name])).1,
        (stage2 qn rest (seen ++ [name])).2)
    else if 5 < qn.length && pyIn name qn then
      (group.map (fun r => (r, Rat.divInt 17 20)) ++ (stage2 qn rest (seen ++ [name])).1,
        (stage2 qn rest (seen ++ [name])).2)
    else stage2 qn rest seen

/-- Python set.update: add the elements not yet present, in order. -/
def addUnique : List Str → List Str → List Str
  | acc, [] => acc
  | acc, n :: ns => if n ∈ acc then addUnique acc ns else addUnique (acc ++ [n]) ns

/-- Search stage 3: the candidate set, the union of the word-index entries
of the query words (the iteration order of the Python set is unspecified;
the embedding fixes first-insertion order, which no claim depends on). -/
def stage3 (wi : List (Str × List Str)) (qws : List Str) : List Str :=
  qws.foldl
    (fun acc w =>
      match lookupAssoc wi w with
      | none => acc
      | some names => addUnique acc names)
    []

/-- Search stage 4: score each unseen candidate name and, when the score
meets the caller threshold, append all its records at that score.  The
dictionary access self.name_to_sponsors[name] is embedded with an empty
default; on the structures the loader builds the key is always present. -/
def stage4 (lk : FastSponsorLookup) (qn : Str) (t : ℚ) :
    List Str → List Str → List (Sponsor × ℚ)
  | [], _ => []
  | name :: rest, seen =>
    if name ∈ seen then stage4 lk qn t rest seen
    else if t ≤ scoreCandidate qn name then
      ((lookupAssoc lk.name_to_sponsors name).getD []).map (fun r => (r, scoreCandidate qn name)) ++
        stage4 lk qn t rest (seen ++ [name])
    else stage4 lk qn t rest seen

/-- Stable insertion into a list sorted by score descending: the new element
goes in front of the first element whose score is not larger.  Together with
sortDesc this is the stable descending sort results.sort performs. -/
def insertDesc (p : Sponsor × ℚ) : List (Sponsor × ℚ) → List (Sponsor × ℚ)
  | [] => [p]
  | q :: qs => if q.2 ≤ p.2 then p :: q :: qs else q :: insertDesc p qs

/-- Stable sort by score descending (Python list.sort with reverse=True). -/
def sortDesc : List (Sponsor × ℚ) → List (Sponsor × ℚ)
  | [] => []
  | p :: ps => insertDesc p (sortDesc ps)

/-- The words of the normalized query that are longer than 2 characters. -/
def queryWords (qn : Str) : List Str :=
  (splitWs qn).filter (fun w => 2 < w.length)

/-- Stage 1 together with its dictionary lookup: no exact key, no results. -/
def stage1Run (lk : FastSponsorLookup) (qn : Str) : List (Sponsor × ℚ) × List Str :=
  match lookupAssoc lk.name_to_sponsors qn with
  | some group => stage1 group []
  | none => ([], [])

/-- FastSponsorLookup.search before the final truncation: the concatenated
results of the four stages, sorted by score descending. -/
def searchAll (lk : FastSponsorLookup) (q : Str) (t : ℚ) : List (Sponsor × ℚ) :=
  sortDesc
    ((stage1Run lk (normalize q)).1 ++
      (stage2 (normalize q) lk.name_to_sponsors (stage1Run lk (normalize q)).2).1 ++
      stage4 lk (normalize q) t
        (stage3 lk.word_index (queryWords (normalize q)))
        (stage2 (normalize q) lk.name_to_sponsors (stage1Run lk (normalize q)).2).2)

/-- FastSponsorLookup.search: sorted results truncated to max_results. -/
def search (lk : FastSponsorLookup) (q : Str) (t : ℚ) (m : ℕ) : List (Sponsor × ℚ) :=
  (searchAll lk q t).take m

/-- FastSponsorLookup.is_sponsor: search with max_results 1, return the top
record when its score meets the threshold. -/
def is_sponsor (lk : FastSponsorLookup) (company_name : Str) (t : ℚ) : Option Sponsor :=
  match search lk company_name t 1 with
  | [] => none
  | (sp, sc) :: _ => if t ≤ sc then some sp else none

/-- The dict update of api.deduplicate_results: store the pair under its
name, replacing a stored pair only on a strictly higher score (the stored
position in the dictionary is kept). -/
def dedupUpdate : List (Str × Sponsor × ℚ) → Str → Sponsor × ℚ → List (Str × Sponsor × ℚ)
  | [], k, v => [(k, v)]
  | (k1, v1) :: rest, k, v =>
    if k1 = k then (if v1.2 < v.2 then (k, v) :: rest else (k1, v1) :: rest)
    else (k1, v1) :: dedupUpdate rest k v

/-- api.deduplicate_results: keep the best-scoring entry per company name,
then sort the kept entries by score descending (sorted is stable, over the
dict values in insertion order). -/
def deduplicate_results (results : List (Sponsor × ℚ)) : List (Sponsor × ℚ) :=
  sortDesc ((results.foldl (fun seen p => dedupUpdate seen p.1.name p) []).map Prod.snd)

/-- The characters after the first occurrence of two slashes, if any. -/
def afterDoubleSlash : Str → Option Str
  | '/' :: '/' :: rest => some rest
  | _ :: rest => afterDoubleSlash rest
  | [] => none

/-- The host part of a URL, as urllib.parse.urlparse().netloc extracts it
for absolute URLs: the text between the double slash and the next slash,
question mark or hash; empty when there is no double slash. -/
def netlocOf (url : Str) : Str :=
  match afterDoubleSlash url with
  | none => []
  | some rest => rest.takeWhile (fun c => !(c == '/' || c == '?' || c == '#'))

/-- FastSponsorLookup.KNOWN_COMPANY_DOMAINS, in definition order. -/
def KNOWN_COMPANY_DOMAINS : List (Str × Str) :=
  [(strL r"careers.google.com", strL r"Google"),
   (strL r"jobs.apple.com", strL r"Apple"),
   (strL r"careers.microsoft.com", strL r"Microsoft"),
   (strL r"amazon.jobs", strL r"Amazon"),
   (strL r"careers.barclays.co.uk", strL r"Barclays"),
   (strL r"jobs.hsbc.co.uk", strL r"HSBC"),
   (strL r"careers.nhs.uk", strL r"NHS"),
   (strL r"jobs.tesco.com", strL r"Tesco"),
   (strL r"careers.sainsburys.co.uk", strL r"Sainsburys")]

/-- The known-domain loop: first table entry whose domain occurs in the
host wins. -/
def knownDomainLookup (domain : Str) : Option Str :=
  KNOWN_COMPANY_DOMAINS.findSome? (fun p => if pyIn p.1 domain then some p.2 else none)

/-- re.search for the company-page patterns of the shape LITERAL followed by
a captured nonempty run of characters other than stop: scan for the first
position where one of the literal alternatives matches with a nonempty
capture; with needStop the stop character must follow the capture (the
trailing hyphen of the glassdoor pattern). -/
def scanCapture (lits : List Str) (stop : Char) (needStop : Bool) : Str → Option Str
  | [] => none
  | s@(_ :: rest) =>
    match lits.findSome? (fun lit =>
        if pyStartsWith lit s then
          let tail := s.drop lit.length
          let cap := tail.takeWhile (fun c => !(c == stop))
          if cap.isEmpty then none
          else if needStop && (tail.drop cap.length).isEmpty then none
          else some cap
        else none) with
    | some cap => some cap
    | none => scanCapture lits stop needStop rest

/-- re.search for the LinkedIn company pattern: the literal prefix, then a
captured nonempty run without slash, then optionally a slash and optionally
the word jobs or about, then the end of the string. -/
def linkedinSearch : Str → Option Str
  | [] => none
  | s@(_ :: rest) =>
    if pyStartsWith (strL r"linkedin.com/company/") s then
      let tail := s.drop (strL r"linkedin.com/company/").length
      let cap := tail.takeWhile (fun c => !(c == '/'))
      let after := tail.drop cap.length
      if ¬cap.isEmpty ∧
          (after = [] ∨ after = strL r"/" ∨ after = strL r"/jobs" ∨ after = strL r"/about")
      then some cap else linkedinSearch rest
    else linkedinSearch rest

/-- Python str.replace of hyphens by blanks. -/
def replaceDash (s : Str) : Str := s.map (fun c => if c == '-' then ' ' else c)

/-- Helper for pyTitle: the flag records whether the previous character was
cased (a letter, in the ASCII fragment). -/
def pyTitleAux : Bool → Str → Str
  | _, [] => []
  | prevAlpha, c :: cs =>
    (if c.isAlpha then (if prevAlpha then c.toLower else c.toUpper) else c) ::
      pyTitleAux c.isAlpha cs

/-- Python str.title(): uppercase every letter that follows a non-letter,
lowercase the other letters. -/
def pyTitle (s : Str) : Str := pyTitleAux false s

/-- Case-insensitive comparison of w against a prefix of s. -/
def matchesCI : Str → Str → Bool
  | [], _ => true
  | _ :: _, [] => false
  | a :: as, b :: bs => a.toLower == b.toLower && matchesCI as bs

/-- A word boundary holds after the removed word: end of string or a
non-word character. -/
def boundaryAfter : Str → Bool
  | [] => true
  | c :: _ => !isWordChar c

/-- Helper for removeWord: the counter skips the remaining characters of a
matched word, the flag records whether the previous character was a word
character (the left boundary test). -/
def removeWordAux (w : Str) : ℕ → Bool → Str → Str
  | _, _, [] => []
  | Nat.succ k, _, c :: cs => removeWordAux w k (isWordChar c) cs
  | 0, prevWord, c :: cs =>
    if !prevWord && matchesCI w (c :: cs) && boundaryAfter ((c :: cs).drop w.length)
    then removeWordAux w (w.length - 1) (isWordChar c) cs
    else c :: removeWordAux w 0 (isWordChar c) cs

/-- One re.sub call of _clean_company_name: remove every whole-word,
case-insensitive occurrence of w. -/
def removeWord (w s : Str) : Str := removeWordAux w 0 false s

/-- The noise-word list of _clean_company_name, in removal order. -/
def noiseWords : List Str :=
  [strL r"Jobs", strL r"Careers", strL r"Ltd", strL r"Limited", strL r"Inc",
   strL r"Corp", strL r"Corporation", strL r"PLC", strL r"LLC"]

/-- The noise-word removal pass of _clean_company_name followed by the
strip: one re.sub per noise word, in order, then remove outer whitespace. -/
def strippedClean (name : Str) : Str :=
  pyStrip (noiseWords.foldl (fun s w => removeWord w s) name)

/-- FastSponsorLookup._clean_company_name: drop the noise words, strip, and
reject a result that is shorter than 2 characters or has no letter. -/
def clean_company_name (name : Str) : Option Str :=
  if name.isEmpty then none
  else if (strippedClean name).length < 2 then none
  else if !((strippedClean name).any Char.isAlpha) then none
  else some (strippedClean name)

/-- The post-processing the pattern loop applies to a captured segment:
hyphens to blanks, title case, then cleaning; a failed cleaning makes the
loop move on to the next pattern. -/
def cleanedCapture (cap : Option Str) : Option Str :=
  match cap with
  | none => none
  | some ext => clean_company_name (pyTitle (replaceDash ext))

/-- The first defined value in a list of optional values (the first loop
iteration that returns). -/
def firstSome : List (Option Str) → Option Str
  | [] => none
  | some c :: _ => some c
  | none :: rest => firstSome rest

/-- The url_patterns loop of extract_company_from_url, in source order over
the lowercased URL: the first pattern whose match survives cleaning wins.
The glassdoor literal keeps its capital letters exactly as in the source, so
(matched case-sensitively against a lowercased URL) it can never fire. -/
def patternExtract (u : Str) : Option Str :=
  firstSome
    [cleanedCapture (linkedinSearch u),
     cleanedCapture (scanCapture [strL r"indeed.com/cmp/", strL r"indeed.co.uk/cmp/"] '/' false u),
     cleanedCapture (scanCapture [strL r"glassdoor.com/Overview/Working-at-",
       strL r"glassdoor.co.uk/Overview/Working-at-"] '-' true u),
     cleanedCapture (scanCapture [strL r"reed.co.uk/company/"] '/' false u),
     cleanedCapture (scanCapture [strL r"totaljobs.com/company/"] '/' false u)]

/-- The career-subdomain heuristic: re.match anchored at the start of the
host, capturing the nonempty text before the first dot when it is followed
by one of the career, careers, jobs, apply or workday labels and a dot; the
captured text is title-cased and cleaned (no hyphen replacement here). -/
def subdomainExtract (domain : Str) : Option Str :=
  if (domain.takeWhile (fun c => !(c == '.'))).isEmpty then none
  else if [strL r".careers.", strL r".career.", strL r".jobs.", strL r".apply.",
      strL r".workday."].any
      (fun p => pyStartsWith p (domain.drop (domain.takeWhile (fun c => !(c == '.'))).length))
  then clean_company_name (pyTitle (domain.takeWhile (fun c => !(c == '.'))))
  else none

/-- The fixed unreliable job-detail URL shapes, in source order. -/
def unreliable_patterns : List Str :=
  [strL r"indeed.com/viewjob", strL r"indeed.co.uk/viewjob",
   strL r"linkedin.com/jobs/view", strL r"glassdoor.com/job", strL r"reed.co.uk/jobs/"]

/-- Does the lowercased URL match one of the unreliable job-detail shapes? -/
def isUnreliable (url_lower : Str) : Bool :=
  unreliable_patterns.any (fun p => pyIn p url_lower)

/-- FastSponsorLookup.extract_company_from_url: known-domain table, then the
pattern loop, then the career-subdomain heuristic; the final unreliable-
pattern loop and the fall-through both return None, so the function answers
none whenever no earlier stage succeeded. -/
def extract_company_from_url (url : Str) : Option Str :=
  match knownDomainLookup ((netlocOf url).map Char.toLower) with
  | some company => some company
  | none =>
  match patternExtract (url.map Char.toLower) with
  | some c => some c
  | none =>
  match subdomainExtract ((netlocOf url).map Char.toLower) with
  | some c => some c
  | none => none

/-! ### Concrete registries used in the counterexamples and witnesses -/

/-- A one-row registry holding Barclays Bank PLC, and its record. -/
def rBarclays : Sponsor :=
  ⟨strL r"Barclays Bank PLC", strL r"London", [], strL r"A rating", strL r"Skilled Worker"⟩

def lkBarclays : FastSponsorLookup :=
  load [⟨strL r"Barclays Bank PLC", strL r"London", [], strL r"A rating", strL r"Skilled Worker"⟩]

/-- A one-row registry whose record name Acme differs from its normalized
form acme (the normalized form is lowercase). -/
def rAcme : Sponsor := ⟨strL r"Acme", strL r"London", [], [], []⟩

def lkAcme : FastSponsorLookup := load [⟨strL r"Acme", strL r"London", [], [], []⟩]

/-- A registry with two distinct records sharing the organisation name
Acme Ltd (as the real registry lists one organisation once per route). -/
def rAcmeLtd1 : Sponsor := ⟨strL r"Acme Ltd", strL r"London", [], [], []⟩

def rAcmeLtd2 : Sponsor := ⟨strL r"Acme Ltd", strL r"Leeds", [], [], []⟩

def lkAcmeLtd : FastSponsorLookup :=
  load [⟨strL r"Acme Ltd", strL r"London", [], [], []⟩,
    ⟨strL r"Acme Ltd", strL r"Leeds", [], [], []⟩]

/-- A registry with two distinct records sharing the already-normalized
organisation name acme. -/
def racme1 : Sponsor := ⟨strL r"acme", strL r"London", [], [], []⟩

def racme2 : Sponsor := ⟨strL r"acme", strL r"Leeds", [], [], []⟩

def lkacme : FastSponsorLookup :=
  load [⟨strL r"acme", strL r"London", [], [], []⟩, ⟨strL r"acme", strL r"Leeds", [], [], []⟩]

/-! ### Helper lemmas about the stable descending sort -/

theorem mem_insertDesc {p q : Sponsor × ℚ} {l : List (Sponsor × ℚ)} :
    p ∈ insertDesc q l ↔ p = q ∨ p ∈ l := by
  induction l with
  | nil => simp [insertDesc]
  | cons r rs ih =>
    simp only [insertDesc]
    split
    · simp [List.mem_cons]
    · simp only [List.mem_cons, ih]
      tauto

theorem mem_sortDesc {p : Sponsor × ℚ} {l : List (Sponsor × ℚ)} :
    p ∈ sortDesc l ↔ p ∈ l := by
  induction l with
  | nil => simp [sortDesc]
  | cons r rs ih => simp [sortDesc, mem_insertDesc, ih]

theorem length_insertDesc (q : Sponsor × ℚ) (l : List (Sponsor × ℚ)) :
    (insertDesc q l).length = l.length + 1 := by
  induction l with
  | nil => rfl
  | cons r rs ih =>
    simp only [insertDesc]
    split
    · simp
    · simp [ih]

theorem length_sortDesc (l : List (Sponsor × ℚ)) : (sortDesc l).length = l.length := by
  induction l with
  | nil => rfl
  | cons r rs ih => simp [sortDesc, length_insertDesc, ih]

theorem insertDesc_front {p : Sponsor × ℚ} {l : List (Sponsor × ℚ)}
    (h : ∀ q ∈ l, q.2 ≤ p.2) : insertDesc p l = p :: l := by
  cases l with
  | nil => rfl
  | cons q qs => exact if_pos (h q (List.mem_cons_self q qs))

theorem sortDesc_append_const {A B : List (Sponsor × ℚ)} {v : ℚ}
    (hA : ∀ p ∈ A, p.2 = v) (hB : ∀ p ∈ B, p.2 ≤ v) :
    sortDesc (A ++ B) = A ++ sortDesc B := by
  induction A with
  | nil => rfl
  | cons a A ih =>
    have ha : a.2 = v := hA a (List.mem_cons_self a A)
    have ih2 := ih (fun p hp => hA p (List.mem_cons_of_mem a hp))
    have hfront : ∀ q ∈ A ++ sortDesc B, q.2 ≤ a.2 := by
      intro q hq
      rw [ha]
      rcases List.mem_append.mp hq with h1 | h1
      · rw [hA q (List.mem_cons_of_mem a h1)]
      · exact hB q (mem_sortDesc.mp h1)
    calc sortDesc (a :: A ++ B) = insertDesc a (sortDesc (A ++ B)) := rfl
      _ = insertDesc a (A ++ sortDesc B) := by rw [ih2]
      _ = a :: (A ++ sortDesc B) := insertDesc_front hfront
      _ = (a :: A) ++ sortDesc B := rfl

theorem sortDesc_const {l : List (Sponsor × ℚ)} {v : ℚ}
    (h : ∀ p ∈ l, p.2 = v) : sortDesc l = l := by
  have := sortDesc_append_const (B := []) h (by simp)
  simpa [sortDesc] using this

theorem pairwise_insertDesc {p : Sponsor × ℚ} {l : List (Sponsor × ℚ)}
    (h : List.Pairwise (fun a b => b.2 ≤ a.2) l) :
    List.Pairwise (fun a b => b.2 ≤ a.2) (insertDesc p l) := by
  induction l with
  | nil => simp [insertDesc]
  | cons q qs ih =>
    rcases List.pairwise_cons.mp h with ⟨hq, hqs⟩
    simp only [insertDesc]
    split
    · refine List.pairwise_cons.mpr ⟨?_, h⟩
      intro b hb
      rcases List.mem_cons.mp hb with rfl | hb
      · assumption
      · exact le_trans (hq b hb) (by assumption)
    · refine List.pairwise_cons.mpr ⟨?_, ih hqs⟩
      intro b hb
      rcases mem_insertDesc.mp hb with rfl | hb
      · exact le_of_lt (lt_of_not_le (by assumption))
      · exact hq b hb

theorem pairwise_sortDesc (l : List (Sponsor × ℚ)) :
    List.Pairwise (fun a b => b.2 ≤ a.2) (sortDesc l) := by
  induction l with
  | nil => simp [sortDesc]
  | cons q qs ih => exact pairwise_insertDesc ih

theorem take_of_length_le {α : Type} {l : List α} {m : ℕ} (h : l.length ≤ m) :
    l.take m = l := by
  induction l generalizing m with
  | nil => simp
  | cons a as ih =>
    cases m with
    | zero => simp at h
    | succ m => simp [List.take, ih (Nat.le_of_succ_le_succ h)]

theorem mem_take_append {α : Type} {a : α} {A C : List α} {m : ℕ}
    (ha : a ∈ A) (h : A.length ≤ m) : a ∈ (A ++ C).take m := by
  induction A generalizing m with
  | nil => simp at ha
  | cons b B ih =>
    cases m with
    | zero => simp at h
    | succ m =>
      rcases List.mem_cons.mp ha with rfl | ha
      · simp
      · simp only [List.cons_append, List.take, List.mem_cons]
        exact Or.inr (ih ha (Nat.le_of_succ_le_succ h))

/-! ### Helper lemmas about the association lists and the search stages -/

theorem lookupAssoc_mem {α : Type} {l : List (Str × α)} {k : Str} {v : α}
    (h : lookupAssoc l k = some v) : (k, v) ∈ l := by
  induction l with
  | nil => simp [lookupAssoc] at h
  | cons p rest ih =>
    obtain ⟨k1, v1⟩ := p
    by_cases hk : k1 = k
    · subst hk
      simp [lookupAssoc] at h
      subst h
      exact List.mem_cons_self _ _
    · simp only [lookupAssoc, if_neg hk] at h
      exact List.mem_cons_of_mem _ (ih h)

theorem mem_lookupAssoc {α : Type} {l : List (Str × α)} {k : Str} {v : α}
    (hnd : (l.map Prod.fst).Nodup) (h : (k, v) ∈ l) : lookupAssoc l k = some v := by
  induction l with
  | nil => simp at h
  | cons p rest ih =>
    obtain ⟨k1, v1⟩ := p
    rcases List.nodup_cons.mp hnd with ⟨hk1, hnd2⟩
    rcases List.mem_cons.mp h with heq | hmem
    · rw [Prod.mk.injEq] at heq
      simp [lookupAssoc, heq.1, heq.2]
    · have hne : k1 ≠ k := by
        intro hh
        subst hh
        exact hk1 (List.mem_map.mpr ⟨(k1, v), hmem, rfl⟩)
      simp only [lookupAssoc, if_neg hne]
      exact ih hnd2 hmem

theorem stage1_eq {g : List Sponsor} {seen : List Str}
    (hnd : (g.map Sponsor.name).Nodup) (hs : ∀ r ∈ g, r.name ∉ seen) :
    stage1 g seen = (g.map (fun r => (r, (1 : ℚ))), seen ++ g.map Sponsor.name) := by
  induction g generalizing seen with
  | nil => simp [stage1]
  | cons sp g ih =>
    rcases List.nodup_cons.mp hnd with ⟨hsp, hnd2⟩
    have h1 : sp.name ∉ seen := hs sp (List.mem_cons_self _ _)
    have hs2 : ∀ r ∈ g, r.name ∉ seen ++ [sp.name] := by
      intro r hr
      simp only [List.mem_append, List.mem_singleton]
      rintro (hx | hx)
      · exact hs r (List.mem_cons_of_mem _ hr) hx
      · exact hsp (hx ▸ List.mem_map.mpr ⟨r, hr, rfl⟩)
    simp only [stage1, if_neg h1, ih hnd2 hs2, List.map_cons, List.append_assoc,
      List.singleton_append]

theorem stage1_seen_mem {g : List Sponsor} {seen : List Str} {x : Str}
    (h : x ∈ (stage1 g seen).2) : x ∈ seen ∨ ∃ r ∈ g, x = r.name := by
  induction g generalizing seen with
  | nil => simp [stage1] at h; exact Or.inl h
  | cons sp g ih =>
    simp only [stage1] at h
    split at h
    · rcases ih h with h1 | ⟨r, hr, hx⟩
      · exact Or.inl h1
      · exact Or.inr ⟨r, List.mem_cons_of_mem _ hr, hx⟩
    · rcases ih h with h1 | ⟨r, hr, hx⟩
      · rcases List.mem_append.mp h1 with h2 | h2
        · exact Or.inl h2
        · exact Or.inr ⟨sp, List.mem_cons_self _ _, List.mem_singleton.mp h2⟩
      · exact Or.inr ⟨r, List.mem_cons_of_mem _ hr, hx⟩

theorem stage1_mem_score {g : List Sponsor} {seen : List Str} {p : Sponsor × ℚ}
    (h : p ∈ (stage1 g seen).1) : p.2 = 1 := by
  induction g generalizing seen with
  | nil => simp [stage1] at h
  | cons sp g ih =>
    simp only [stage1] at h
    split at h
    · exact ih h
    · rcases List.mem_cons.mp h with rfl | hm
      · rfl
      · exact ih hm

theorem stage2_mem_score {qn : Str} {l : List (Str × List Sponsor)} {seen : List Str}
    {p : Sponsor × ℚ} (h : p ∈ (stage2 qn l seen).1) :
    p.2 = Rat.divInt 9 10 ∨ p.2 = Rat.divInt 17 20 := by
  induction l generalizing seen with
  | nil => simp [stage2] at h
  | cons e rest ih =>
    obtain ⟨name, group⟩ := e
    simp only [stage2] at h
    split at h
    · exact ih h
    · split at h
      · rcases List.mem_append.mp h with h1 | h1
        · rcases List.mem_map.mp h1 with ⟨r, _, rfl⟩
          exact Or.inl rfl
        · exact ih h1
      · split at h
        · rcases List.mem_append.mp h with h1 | h1
          · rcases List.mem_map.mp h1 with ⟨r, _, rfl⟩
            exact Or.inr rfl
          · exact ih h1
        · exact ih h

theorem stage2_mem_of {qn M : Str} {gM : List Sponsor} {l : List (Str × List Sponsor)}
    {seen : List Str} (hmem : (M, gM) ∈ l) (hnd : (l.map Prod.fst).Nodup)
    (hseen : M ∉ seen) (hin : pyIn qn M = true) {r : Sponsor} (hr : r ∈ gM) :
    (r, Rat.divInt 9 10) ∈ (stage2 qn l seen).1 := by
  induction l generalizing seen with
  | nil => simp at hmem
  | cons e rest ih =>
    obtain ⟨name, group⟩ := e
    rcases List.nodup_cons.mp hnd with ⟨hname, hnd2⟩
    rcases List.mem_cons.mp hmem with heq | hmem2
    · rw [Prod.mk.injEq] at heq
      obtain ⟨rfl, rfl⟩ := heq
      simp only [stage2, if_neg hseen, hin, if_pos rfl]
      exact List.mem_append.mpr (Or.inl (List.mem_map.mpr ⟨r, hr, rfl⟩))
    · have hMname : name ≠ M := by
        intro hh
        subst hh
        exact hname (List.mem_map.mpr ⟨(name, gM), hmem2, rfl⟩)
      simp only [stage2]
      split
      · exact ih hmem2 hnd2 hseen
      · split
        · refine List.mem_append.mpr (Or.inr (ih hmem2 hnd2 ?_))
          simp only [List.mem_append, List.mem_singleton]
          rintro (hx | hx)
          · exact hseen hx
          · exact hMname hx.symm
        · split
          · refine List.mem_append.mpr (Or.inr (ih hmem2 hnd2 ?_))
            simp only [List.mem_append, List.mem_singleton]
            rintro (hx | hx)
            · exact hseen hx
            · exact hMname hx.symm
          · exact ih hmem2 hnd2 hseen

theorem stage4_mem_score {lk : FastSponsorLookup} {qn : Str} {t : ℚ} {cs seen : List Str}
    {p : Sponsor × ℚ} (h : p ∈ stage4 lk qn t cs seen) :
    ∃ name, p.2 = scoreCandidate qn name := by
  induction cs generalizing seen with
  | nil => simp [stage4] at h
  | cons name rest ih =>
    simp only [stage4] at h
    split at h
    · exact ih h
    · split at h
      · rcases List.mem_append.mp h with h1 | h1
        · rcases List.mem_map.mp h1 with ⟨r, _, rfl⟩
          exact ⟨name, rfl⟩
        · exact ih h1
      · exact ih h

/-! ### Score bounds, candidate-set distinctness, threshold monotonicity -/

theorem jaccard_le_one (aw bw : List Str) : jaccard aw bw ≤ 1 := by
  rw [jaccard]
  split
  · exact zero_le_one
  · split
    · rw [Rat.divInt_eq_div, div_le_one (by exact_mod_cast (by assumption))]
      have hle : (aw.filter (fun w => w ∈ bw)).length ≤
          (aw ++ bw.filter (fun w => w ∉ aw)).length := by
        calc (aw.filter (fun w => w ∈ bw)).length ≤ aw.length := List.length_filter_le _ _
          _ ≤ (aw ++ bw.filter (fun w => w ∉ aw)).length := by simp
      exact_mod_cast hle
    · exact zero_le_one

theorem simple_similarity_le_one (a b : Str) : simple_similarity a b ≤ 1 :=
  jaccard_le_one _ _

theorem boostStep_le_one {qt nt : Str} {s : ℚ} (hs : s ≤ 1) : boostStep qt s nt ≤ 1 := by
  have h1 : (if pyStartsWith qt nt || pyStartsWith nt qt then max s (Rat.divInt 7 10) else s) ≤ 1 := by
    split
    · exact max_le hs (by decide)
    · exact hs
  rw [boostStep]
  split
  · exact max_le h1 (by decide)
  · exact h1

theorem boostInner_le_one {qt : Str} {nts : List Str} {s : ℚ} (hs : s ≤ 1) :
    boostInner qt nts s ≤ 1 := by
  induction nts generalizing s with
  | nil => simpa [boostInner] using hs
  | cons nt rest ih =>
    simp only [boostInner, List.foldl_cons] at ih ⊢
    exact ih (boostStep_le_one hs)

theorem scoreCandidate_le_one (qn name : Str) : scoreCandidate qn name ≤ 1 := by
  rw [scoreCandidate]
  have h0 := simple_similarity_le_one qn name
  generalize simple_similarity qn name = s0 at h0
  generalize dedupList (splitWs qn) = qts
  induction qts generalizing s0 with
  | nil => simpa using h0
  | cons qt rest ih =>
    simp only [List.foldl_cons]
    exact ih _ (boostInner_le_one h0)

theorem addUnique_nodup {acc ns : List Str} (h : acc.Nodup) : (addUnique acc ns).Nodup := by
  induction ns generalizing acc with
  | nil => simpa [addUnique] using h
  | cons n ns ih =>
    simp only [addUnique]
    split
    · exact ih h
    · refine ih ?_
      simp only [List.nodup_append, List.nodup_singleton, List.disjoint_singleton]
      exact ⟨h, trivial, by assumption⟩

theorem stage3_nodup (wi : List (Str × List Str)) (qws : List Str) :
    (stage3 wi qws).Nodup := by
  suffices h : ∀ acc : List Str, acc.Nodup →
      (qws.foldl (fun acc w =>
        match lookupAssoc wi w with
        | none => acc
        | some names => addUnique acc names) acc).Nodup from h [] List.nodup_nil
  induction qws with
  | nil => intro acc hacc; simpa using hacc
  | cons w qws ih =>
    intro acc hacc
    simp only [List.foldl_cons]
    apply ih
    cases lookupAssoc wi w with
    | none => simpa using hacc
    | some names => simpa using addUnique_nodup hacc

theorem stage4_length_mono {lk : FastSponsorLookup} {qn : Str} {t1 t2 : ℚ} (ht : t1 ≤ t2) :
    ∀ {cs : List Str}, cs.Nodup → ∀ {seen1 seen2 : List Str},
      (∀ c ∈ cs, c ∈ seen1 ↔ c ∈ seen2) →
      (stage4 lk qn t2 cs seen2).length ≤ (stage4 lk qn t1 cs seen1).length := by
  intro cs
  induction cs with
  | nil => intro _ seen1 seen2 _; simp [stage4]
  | cons name rest ih =>
    intro hnd seen1 seen2 hiff
    rcases List.nodup_cons.mp hnd with ⟨hname, hnd2⟩
    have hiff2 : ∀ c ∈ rest, c ∈ seen1 ↔ c ∈ seen2 :=
      fun c hc => hiff c (List.mem_cons_of_mem _ hc)
    have hiff3 : ∀ c ∈ rest, c ∈ seen1 ++ [name] ↔ c ∈ seen2 ++ [name] := by
      intro c hc
      have hne : c ≠ name := fun hh => hname (hh ▸ hc)
      simp only [List.mem_append, List.mem_singleton, hne, or_false]
      exact hiff2 c hc
    have hiff4 : ∀ c ∈ rest, c ∈ seen1 ++ [name] ↔ c ∈ seen2 := by
      intro c hc
      have hne : c ≠ name := fun hh => hname (hh ▸ hc)
      simp only [List.mem_append, List.mem_singleton, hne, or_false]
      exact hiff2 c hc
    have hn := hiff name (List.mem_cons_self _ _)
    by_cases h1 : name ∈ seen1
    · have h2 : name ∈ seen2 := hn.mp h1
      simp only [stage4, if_pos h1, if_pos h2]
      exact ih hnd2 hiff2
    · have h2 : name ∉ seen2 := fun hh => h1 (hn.mpr hh)
      simp only [stage4, if_neg h1, if_neg h2]
      by_cases hsc2 : t2 ≤ scoreCandidate qn name
      · have hsc1 : t1 ≤ scoreCandidate qn name := le_trans ht hsc2
        simp only [if_pos hsc1, if_pos hsc2, List.length_append]
        exact Nat.add_le_add_left (ih hnd2 hiff3) _
      · simp only [if_neg hsc2]
        by_cases hsc1 : t1 ≤ scoreCandidate qn name
        · simp only [if_pos hsc1, List.length_append]
          calc (stage4 lk qn t2 rest seen2).length
              ≤ (stage4 lk qn t1 rest (seen1 ++ [name])).length := ih hnd2 hiff4
            _ ≤ _ := Nat.le_add_left _ _
        · simp only [if_neg hsc1]
          exact ih hnd2 hiff2

/-! ### Helper lemmas for the URL extractor -/

theorem clean_company_name_spec {n s : Str} (h : clean_company_name n = some s) :
    2 ≤ s.length ∧ s.any Char.isAlpha = true := by
  rw [clean_company_name] at h
  split at h
  · exact absurd h (by simp)
  · split at h
    · exact absurd h (by simp)
    · split at h
      · exact absurd h (by simp)
      · rcases Option.some.injEq _ _ ▸ h with rfl
        constructor
        · omega
        · have hb : ¬(!((strippedClean n).any Char.isAlpha)) = true := by assumption
          simpa using hb

theorem cleanedCapture_spec {cap : Option Str} {s : Str} (h : cleanedCapture cap = some s) :
    2 ≤ s.length ∧ s.any Char.isAlpha = true := by
  cases cap with
  | none => simp [cleanedCapture] at h
  | some ext => exact clean_company_name_spec (by simpa [cleanedCapture] using h)

theorem findSome?_mem {α β : Type} {f : α → Option β} {l : List α} {b : β}
    (h : l.findSome? f = some b) : ∃ a ∈ l, f a = some b := by
  induction l with
  | nil => simp [List.findSome?_nil] at h
  | cons x xs ih =>
    rw [List.findSome?_cons] at h
    cases hfx : f x with
    | some y =>
      rw [hfx] at h
      exact ⟨x, List.mem_cons_self _ _, hfx.trans h⟩
    | none =>
      rw [hfx] at h
      rcases ih h with ⟨a, ha, hfa⟩
      exact ⟨a, List.mem_cons_of_mem _ ha, hfa⟩

theorem knownDomainLookup_mem {domain c : Str} (h : knownDomainLookup domain = some c) :
    c ∈ KNOWN_COMPANY_DOMAINS.map Prod.snd := by
  rw [knownDomainLookup] at h
  rcases findSome?_mem h with ⟨p, hp, hfp⟩
  refine List.mem_map.mpr ⟨p, hp, ?_⟩
  by_cases hin : pyIn p.1 domain
  · simp only [hin, if_true] at hfp
    exact Option.some.inj hfp
  · simp [hin] at hfp

/-! ### Permutation facts for the sort, and the empty-query stage 2 -/

theorem perm_insertDesc (p : Sponsor × ℚ) (l : List (Sponsor × ℚ)) :
    (insertDesc p l).Perm (p :: l) := by
  induction l with
  | nil => exact List.Perm.refl _
  | cons q qs ih =>
    simp only [insertDesc]
    split
    · exact List.Perm.refl _
    · exact (ih.cons q).trans (List.Perm.swap p q qs)

theorem perm_sortDesc (l : List (Sponsor × ℚ)) : (sortDesc l).Perm l := by
  induction l with
  | nil => exact List.Perm.refl _
  | cons p ps ih => exact (perm_insertDesc p (sortDesc ps)).trans (ih.cons p)

theorem pyIn_nil (s : Str) : pyIn [] s = true := by
  cases s with
  | nil => rfl
  | cons c cs => simp [pyIn, pyStartsWith]

theorem stage2_empty_query {l : List (Str × List Sponsor)} :
    ∀ {seen : List Str}, (l.map Prod.fst).Nodup → (∀ k ∈ l.map Prod.fst, k ∉ seen) →
    stage2 [] l seen =
      ((l.map (fun e => e.2.map (fun r => (r, Rat.divInt 9 10)))).flatten,
        seen ++ l.map Prod.fst) := by
  induction l with
  | nil => intro seen _ _; simp [stage2]
  | cons e rest ih =>
    obtain ⟨name, group⟩ := e
    intro seen hnd hseen
    rw [List.map_cons] at hnd
    rcases List.nodup_cons.mp hnd with ⟨hname, hnd2⟩
    have h1 : name ∉ seen := hseen name (by simp)
    have hseen2 : ∀ k ∈ rest.map Prod.fst, k ∉ seen ++ [name] := by
      intro k hk
      simp only [List.mem_append, List.mem_singleton]
      rintro (hx | hx)
      · exact hseen k (List.mem_cons_of_mem _ hk) hx
      · exact hname (hx ▸ hk)
    simp only [stage2, if_neg h1, if_pos (pyIn_nil name)]
    rw [ih hnd2 hseen2]
    simp [List.append_assoc]

theorem firstSome_mem {l : List (Option Str)} {c : Str} (h : firstSome l = some c) :
    some c ∈ l := by
  induction l with
  | nil => simp [firstSome] at h
  | cons o rest ih =>
    cases o with
    | some d =>
      simp only [firstSome] at h
      exact List.mem_cons.mpr (Or.inl h.symm)
    | none =>
      simp only [firstSome] at h
      exact List.mem_cons_of_mem _ (ih h)

theorem patternExtract_spec {u s : Str} (h : patternExtract u = some s) :
    2 ≤ s.length ∧ s.any Char.isAlpha = true := by
  rw [patternExtract] at h
  have hm := firstSome_mem h
  simp only [List.mem_cons, List.not_mem_nil, or_false] at hm
  rcases hm with hm | hm | hm | hm | hm
  all_goals exact cleanedCapture_spec hm.symm

theorem subdomainExtract_spec {domain s : Str} (h : subdomainExtract domain = some s) :
    2 ≤ s.length ∧ s.any Char.isAlpha = true := by
  rw [subdomainExtract] at h
  split at h
  · exact absurd h (by simp)
  · split at h
    · exact clean_company_name_spec h
    · exact absurd h (by simp)

/-! ### The dictionary invariant behind deduplicate_results -/

theorem dedupUpdate_keys {acc : List (Str × Sponsor × ℚ)} {k : Str} {v : Sponsor × ℚ} :
    (dedupUpdate acc k v).map Prod.fst =
      if k ∈ acc.map Prod.fst then acc.map Prod.fst else acc.map Prod.fst ++ [k] := by
  induction acc with
  | nil =>
    simp only [dedupUpdate, List.map_cons, List.map_nil, List.nil_append]
    rw [if_neg (List.not_mem_nil k)]
  | cons e rest ih =>
    obtain ⟨k1, v1⟩ := e
    by_cases hk : k1 = k
    · subst hk
      by_cases hv : v1.2 < v.2
      · simp [dedupUpdate, hv]
      · simp [dedupUpdate, hv]
    · simp only [dedupUpdate, if_neg hk, List.map_cons, ih]
      by_cases hmem : k ∈ rest.map Prod.fst
      · rw [if_pos hmem, if_pos (List.mem_cons_of_mem k1 hmem)]
      · have hcond : k ∉ k1 :: List.map Prod.fst rest := by
          simp only [List.mem_cons]
          rintro (hh | hh)
          · exact hk hh.symm
          · exact hmem hh
        rw [if_neg hmem, if_neg hcond, List.cons_append]

theorem dedupUpdate_mem_inv {P : List (Sponsor × ℚ)} {p : Sponsor × ℚ} :
    ∀ {acc : List (Str × Sponsor × ℚ)}, (acc.map Prod.fst).Nodup →
    (∀ e ∈ acc, e.2.1.name = e.1 ∧ e.2 ∈ P ∧ ∀ q ∈ P, q.1.name = e.1 → q.2 ≤ e.2.2) →
    (∀ q ∈ P, q.1.name = p.1.name → p.1.name ∈ acc.map Prod.fst) →
    ∀ e ∈ dedupUpdate acc p.1.name p, e.2.1.name = e.1 ∧ e.2 ∈ P ++ [p] ∧
      ∀ q ∈ P ++ [p], q.1.name = e.1 → q.2 ≤ e.2.2 := by
  intro acc
  induction acc with
  | nil =>
    intro _ _ hnames e he
    simp only [dedupUpdate, List.mem_singleton] at he
    subst he
    refine ⟨rfl, by simp, ?_⟩
    intro q hq hname
    rcases List.mem_append.mp hq with hqP | hqp
    · exact absurd (hnames q hqP hname) (by simp)
    · rw [List.mem_singleton.mp hqp]
  | cons a rest ih =>
    obtain ⟨k1, v1⟩ := a
    intro hnd hinv hnames e he
    rw [List.map_cons] at hnd
    rcases List.nodup_cons.mp hnd with ⟨hk1rest, hnd2⟩
    have hhead := hinv (k1, v1) (List.mem_cons_self _ _)
    by_cases hk : k1 = p.1.name
    · subst hk
      have hne : ∀ x ∈ rest, (x : Str × Sponsor × ℚ).1 ≠ p.1.name := by
        intro x hx hh
        exact hk1rest (hh ▸ List.mem_map.mpr ⟨x, hx, rfl⟩)
      by_cases hv : v1.2 < p.2
      · rw [dedupUpdate, if_pos rfl, if_pos hv] at he
        rcases List.mem_cons.mp he with rfl | hrest
        · refine ⟨rfl, by simp, ?_⟩
          intro q hq hname
          rcases List.mem_append.mp hq with hqP | hqp
          · exact le_of_lt (lt_of_le_of_lt (hhead.2.2 q hqP hname) hv)
          · rw [List.mem_singleton.mp hqp]
        · have hr := hinv e (List.mem_cons_of_mem _ hrest)
          refine ⟨hr.1, List.mem_append.mpr (Or.inl hr.2.1), ?_⟩
          intro q hq hname
          rcases List.mem_append.mp hq with hqP | hqp
          · exact hr.2.2 q hqP hname
          · rw [List.mem_singleton.mp hqp] at hname
            exact absurd hname.symm (hne e hrest)
      · rw [dedupUpdate, if_pos rfl, if_neg hv] at he
        rcases List.mem_cons.mp he with rfl | hrest
        · refine ⟨hhead.1, List.mem_append.mpr (Or.inl hhead.2.1), ?_⟩
          intro q hq hname
          rcases List.mem_append.mp hq with hqP | hqp
          · exact hhead.2.2 q hqP hname
          · rw [List.mem_singleton.mp hqp] at hname ⊢
            rw [hname]
            exact le_of_not_lt hv
        · have hr := hinv e (List.mem_cons_of_mem _ hrest)
          refine ⟨hr.1, List.mem_append.mpr (Or.inl hr.2.1), ?_⟩
          intro q hq hname
          rcases List.mem_append.mp hq with hqP | hqp
          · exact hr.2.2 q hqP hname
          · rw [List.mem_singleton.mp hqp] at hname
            exact absurd hname.symm (hne e hrest)
    · rw [dedupUpdate, if_neg hk] at he
      rcases List.mem_cons.mp he with rfl | hrest
      · refine ⟨hhead.1, List.mem_append.mpr (Or.inl hhead.2.1), ?_⟩
        intro q hq hname
        rcases List.mem_append.mp hq with hqP | hqp
        · exact hhead.2.2 q hqP hname
        · rw [List.mem_singleton.mp hqp] at hname
          exact absurd hname.symm hk
      · refine ih hnd2 (fun x hx => hinv x (List.mem_cons_of_mem _ hx)) ?_ e hrest
        intro q hq hname
        have := hnames q hq hname
        rw [List.map_cons] at this
        rcases List.mem_cons.mp this with hh | hh
        · exact absurd hh.symm hk
        · exact hh

theorem dedupFold_inv :
    ∀ (input : List (Sponsor × ℚ)) (acc : List (Str × Sponsor × ℚ)) (P : List (Sponsor × ℚ)),
    (acc.map Prod.fst).Nodup →
    (∀ e ∈ acc, e.2.1.name = e.1 ∧ e.2 ∈ P ∧ ∀ q ∈ P, q.1.name = e.1 → q.2 ≤ e.2.2) →
    (∀ q ∈ P, q.1.name ∈ acc.map Prod.fst) →
    ((input.foldl (fun seen p => dedupUpdate seen p.1.name p) acc).map Prod.fst).Nodup ∧
    ∀ e ∈ input.foldl (fun seen p => dedupUpdate seen p.1.name p) acc,
      e.2.1.name = e.1 ∧ e.2 ∈ P ++ input ∧
        ∀ q ∈ P ++ input, q.1.name = e.1 → q.2 ≤ e.2.2 := by
  intro input
  induction input with
  | nil =>
    intro acc P h1 h2 _
    refine ⟨by simpa using h1, ?_⟩
    intro e he
    simpa using h2 e he
  | cons p input ih =>
    intro acc P h1 h2 h3
    simp only [List.foldl_cons]
    have hkeys2 : ((dedupUpdate acc p.1.name p).map Prod.fst).Nodup := by
      rw [dedupUpdate_keys]
      split
      · exact h1
      · simp only [List.nodup_append, List.nodup_singleton, List.disjoint_singleton]
        exact ⟨h1, trivial, by assumption⟩
    have hnames : ∀ q ∈ P, q.1.name = p.1.name → p.1.name ∈ acc.map Prod.fst :=
      fun q hq hname => hname ▸ h3 q hq
    have hinv2 := dedupUpdate_mem_inv h1 h2 hnames
    have h3n : ∀ q ∈ P ++ [p], q.1.name ∈ (dedupUpdate acc p.1.name p).map Prod.fst := by
      intro q hq
      rw [dedupUpdate_keys]
      rcases List.mem_append.mp hq with hqP | hqp
      · split
        · exact h3 q hqP
        · exact List.mem_append.mpr (Or.inl (h3 q hqP))
      · rw [List.mem_singleton.mp hqp]
        split
        · assumption
        · exact List.mem_append.mpr (Or.inr (by simp))
    have hres := ih (dedupUpdate acc p.1.name p) (P ++ [p]) hkeys2 hinv2 h3n
    rw [List.append_assoc, List.singleton_append] at hres
    exact hres

/-! ### The claims -/

/-- Claim C5: for every registry, query and result cap, and all thresholds
t1 at most t2, searching at the higher threshold returns at most as many
results as searching at the lower one. -/
theorem search_threshold_monotone (lk : FastSponsorLookup) (q : Str) (m : ℕ) (t1 t2 : ℚ)
    (ht : t1 ≤ t2) : (search lk q t2 m).length ≤ (search lk q t1 m).length := by
  have h4 := @stage4_length_mono lk (normalize q) t1 t2 ht
    (stage3 lk.word_index (queryWords (normalize q))) (stage3_nodup _ _)
    ((stage2 (normalize q) lk.name_to_sponsors (stage1Run lk (normalize q)).2).2)
    ((stage2 (normalize q) lk.name_to_sponsors (stage1Run lk (normalize q)).2).2)
    (fun c _ => Iff.rfl)
  rw [search, search, List.length_take, List.length_take, searchAll, searchAll,
    length_sortDesc, length_sortDesc]
  refine min_le_min (le_refl m) ?_
  simp only [List.length_append]
  omega

/-- Witness for search_threshold_monotone at the Barclays registry. -/
theorem search_threshold_monotone_witness :
    Rat.divInt 1 2 ≤ Rat.divInt 9 10 ∧
    (search lkBarclays (strL r"Barclays") (Rat.divInt 9 10) 10).length ≤
      (search lkBarclays (strL r"Barclays") (Rat.divInt 1 2) 10).length :=
  ⟨by decide,
    search_threshold_monotone lkBarclays (strL r"Barclays") 10 (Rat.divInt 1 2)
      (Rat.divInt 9 10) (by decide)⟩

/-- Claim C6: is_sponsor calls search with max_results 1 and answers the top
record exactly when its score meets the threshold, and reports absence
otherwise (it is a total function, so it cannot raise on a miss). -/
theorem is_sponsor_spec (lk : FastSponsorLookup) (n : Str) (t : ℚ) (r : Sponsor) :
    is_sponsor lk n t = some r ↔
      ∃ sc rest, search lk n t 1 = (r, sc) :: rest ∧ t ≤ sc := by
  rw [is_sponsor]
  cases hs : search lk n t 1 with
  | nil =>
    constructor
    · intro h
      exact absurd h (by simp)
    · rintro ⟨sc, rest, heq, -⟩
      exact absurd heq (by simp)
  | cons p rest =>
    obtain ⟨sp, sc⟩ := p
    show (if t ≤ sc then some sp else none) = some r ↔ _
    by_cases hle : t ≤ sc
    · rw [if_pos hle]
      constructor
      · intro h
        exact ⟨sc, rest, by rw [Option.some.inj h], hle⟩
      · rintro ⟨sc2, rest2, heq, -⟩
        injection heq with h1 h2
        injection h1 with h3 h4
        rw [h3]
    · rw [if_neg hle]
      constructor
      · intro h
        exact absurd h (by simp)
      · rintro ⟨sc2, rest2, heq, hle2⟩
        injection heq with h1 h2
        injection h1 with h3 h4
        exact absurd (h4.symm ▸ hle2) hle

/-- Claim C8: the substring-stage scores are fixed constants independent of
the caller threshold; concretely, at threshold 0.95 the Barclays registry
still answers the substring query with score 0.9, strictly below the
threshold. -/
theorem substring_stage_ignores_threshold :
    search lkBarclays (strL r"barclays") (Rat.divInt 19 20) 10 =
      [(rBarclays, Rat.divInt 9 10)] ∧
    Rat.divInt 9 10 < Rat.divInt 19 20 := ⟨by decide, by decide⟩

/-- Claim C4 (failing input): the seen set of stage 1 records the original
name Acme while stages 2 and 4 test normalized names, so the single record
of the Acme registry is returned twice in one call, at scores 1.0 and 0.9. -/
theorem search_returns_record_twice :
    search lkAcme (strL r"Acme") (Rat.divInt 1 2) 10 =
      [(rAcme, 1), (rAcme, Rat.divInt 9 10)] := by decide

/-- Claim C9: a URL that matches an unreliable job-detail shape and is
matched by no higher-priority rule (known-domain table, company-page
pattern, career subdomain) is refused: extract_company_from_url answers
none rather than guessing. -/
theorem extract_unreliable_refusal (url : Str)
    (_hu : isUnreliable (url.map Char.toLower) = true)
    (h1 : knownDomainLookup ((netlocOf url).map Char.toLower) = none)
    (h2 : patternExtract (url.map Char.toLower) = none)
    (h3 : subdomainExtract ((netlocOf url).map Char.toLower) = none) :
    extract_company_from_url url = none := by
  rw [extract_company_from_url, h1, h2, h3]

/-- Witness for extract_unreliable_refusal at the Indeed job-view URL the
specification names. -/
theorem extract_unreliable_refusal_witness :
    isUnreliable ((strL r"https://uk.indeed.com/viewjob?jk=abc123").map Char.toLower) = true ∧
    extract_company_from_url (strL r"https://uk.indeed.com/viewjob?jk=abc123") = none :=
  ⟨by decide,
    extract_unreliable_refusal (strL r"https://uk.indeed.com/viewjob?jk=abc123")
      (by decide) (by decide) (by decide) (by decide)⟩

/-- Claim C10: extract_company_from_url is total, and every name it returns
is either a verbatim value of the known-domain table or has passed
cleaning, that is, it has at least 2 characters and contains a letter. -/
theorem extract_company_safety (url s : Str)
    (h : extract_company_from_url url = some s) :
    s ∈ KNOWN_COMPANY_DOMAINS.map Prod.snd ∨
      (2 ≤ s.length ∧ s.any Char.isAlpha = true) := by
  rw [extract_company_from_url] at h
  cases hk : knownDomainLookup ((netlocOf url).map Char.toLower) with
  | some c =>
    rw [hk] at h
    exact Or.inl (Option.some.inj h ▸ knownDomainLookup_mem hk)
  | none =>
    rw [hk] at h
    cases hp : patternExtract (url.map Char.toLower) with
    | some c =>
      rw [hp] at h
      exact Or.inr (Option.some.inj h ▸ patternExtract_spec hp)
    | none =>
      rw [hp] at h
      cases hsub : subdomainExtract ((netlocOf url).map Char.toLower) with
      | some c =>
        rw [hsub] at h
        exact Or.inr (Option.some.inj h ▸ subdomainExtract_spec hsub)
      | none =>
        rw [hsub] at h
        exact absurd h (by simp)

/-- Witness for extract_company_safety at the known Google careers domain. -/
theorem extract_company_safety_witness :
    extract_company_from_url (strL r"https://careers.google.com/jobs/results/123") =
      some (strL r"Google") ∧
    (strL r"Google" ∈ KNOWN_COMPANY_DOMAINS.map Prod.snd ∨
      (2 ≤ (strL r"Google").length ∧ (strL r"Google").any Char.isAlpha = true)) :=
  ⟨by decide,
    extract_company_safety (strL r"https://careers.google.com/jobs/results/123")
      (strL r"Google") (by decide)⟩

/-- Claim C3 (counterexample): the query consisting of three question marks
normalizes to the empty string, yet search over the Barclays registry does
not return the empty sequence. -/
theorem search_empty_query_counterexample :
    search lkBarclays (strL r"???") (Rat.divInt 1 2) 10 ≠ [] := by decide

/-- Claim C3 (amended): search is a total function, but a query that
normalizes to the empty string does not yield an empty result: because the
empty string occurs in every name, every indexed name (when none of them is
itself empty and the keys are distinct) is scored 0.9, and search returns
all their records, in index order, truncated to max_results. -/
theorem search_empty_query_amended (lk : FastSponsorLookup) (q : Str) (t : ℚ) (m : ℕ)
    (hq : normalize q = [])
    (hnone : lookupAssoc lk.name_to_sponsors [] = none)
    (hnd : (lk.name_to_sponsors.map Prod.fst).Nodup) :
    search lk q t m =
      ((lk.name_to_sponsors.map
        (fun e => e.2.map (fun r => (r, Rat.divInt 9 10)))).flatten).take m := by
  have hs2 := @stage2_empty_query lk.name_to_sponsors [] hnd (by simp)
  have hr1 : (stage1Run lk (normalize q)).1 = [] := by rw [stage1Run, hq, hnone]
  have hr2 : (stage1Run lk (normalize q)).2 = [] := by rw [stage1Run, hq, hnone]
  rw [search, searchAll, hr1, hr2, hq]
  have hs40 : ∀ u : List Str, stage4 lk [] t (stage3 lk.word_index (queryWords [])) u = [] :=
    fun u => rfl
  rw [hs40, hs2]
  simp only [List.nil_append, List.append_nil]
  congr 1
  apply sortDesc_const
  intro p hp
  rcases List.mem_flatten.mp hp with ⟨L, hL, hpL⟩
  rcases List.mem_map.mp hL with ⟨e, -, rfl⟩
  rcases List.mem_map.mp hpL with ⟨r, -, rfl⟩
  rfl

/-- Witness for search_empty_query_amended at the Barclays registry. -/
theorem search_empty_query_amended_witness :
    normalize (strL r"???") = [] ∧
    search lkBarclays (strL r"???") (Rat.divInt 1 2) 10 =
      ((lkBarclays.name_to_sponsors.map
        (fun e => e.2.map (fun r => (r, Rat.divInt 9 10)))).flatten).take 10 :=
  ⟨by decide,
    search_empty_query_amended lkBarclays (strL r"???") (Rat.divInt 1 2) 10
      (by decide) (by decide) (by decide)⟩

/-- Claim C1 (counterexample): the registry holds two distinct records with
the same name Acme Ltd under the normalized name acme ltd; searching that
normalized name at threshold 1.0 returns the second record only at score
0.9, never at score 1.0, because stage 1 keys its seen set by the original
name string. -/
theorem search_exact_match_counterexample :
    search lkAcmeLtd (strL r"acme ltd") 1 10 =
      [(rAcmeLtd1, 1), (rAcmeLtd1, Rat.divInt 9 10), (rAcmeLtd2, Rat.divInt 9 10)] ∧
    (rAcmeLtd2, (1 : ℚ)) ∉ search lkAcmeLtd (strL r"acme ltd") 1 10 :=
  ⟨by decide, by decide⟩

/-- Claim C1 (amended): when the records indexed under the normalized name N
have pairwise distinct original name strings and fit within max_results,
searching any query that normalizes to N at threshold 1.0 returns every one
of those records with score 1.0. -/
theorem search_exact_match_amended (lk : FastSponsorLookup) (q N : Str) (g : List Sponsor)
    (m : ℕ)
    (hlk : lookupAssoc lk.name_to_sponsors N = some g)
    (hq : normalize q = N)
    (hnd : (g.map Sponsor.name).Nodup)
    (hm : g.length ≤ m) :
    ∀ r ∈ g, (r, (1 : ℚ)) ∈ search lk q 1 m := by
  intro r hr
  have hr1 : (stage1Run lk (normalize q)).1 = g.map (fun x => (x, (1 : ℚ))) := by
    rw [stage1Run, hq, hlk]
    show (stage1 g []).1 = _
    rw [stage1_eq hnd (by simp)]
  have hr2 : (stage1Run lk (normalize q)).2 = g.map Sponsor.name := by
    rw [stage1Run, hq, hlk]
    show (stage1 g []).2 = _
    rw [stage1_eq hnd (by simp)]
    simp
  have hA : ∀ p ∈ g.map (fun x => (x, (1 : ℚ))), (p : Sponsor × ℚ).2 = 1 := by
    intro p hp
    rcases List.mem_map.mp hp with ⟨x, -, rfl⟩
    rfl
  have hB : ∀ p ∈ (stage2 (normalize q) lk.name_to_sponsors (g.map Sponsor.name)).1 ++
      stage4 lk (normalize q) 1
        (stage3 lk.word_index (queryWords (normalize q)))
        (stage2 (normalize q) lk.name_to_sponsors (g.map Sponsor.name)).2,
      (p : Sponsor × ℚ).2 ≤ 1 := by
    intro p hp
    rcases List.mem_append.mp hp with h | h
    · rcases stage2_mem_score h with h9 | h85
      · rw [h9]; decide
      · rw [h85]; decide
    · rcases stage4_mem_score h with ⟨nm, hnm⟩
      rw [hnm]
      exact scoreCandidate_le_one _ _
  rw [search, searchAll, hr1, hr2, List.append_assoc, sortDesc_append_const hA hB]
  exact mem_take_append (List.mem_map.mpr ⟨r, hr, rfl⟩) (by simpa using hm)

/-- Witness for search_exact_match_amended at the Barclays registry. -/
theorem search_exact_match_amended_witness :
    lookupAssoc lkBarclays.name_to_sponsors (strL r"barclays bank plc") = some [rBarclays] ∧
    (rBarclays, (1 : ℚ)) ∈ search lkBarclays (strL r"barclays bank plc") 1 10 :=
  ⟨by decide,
    search_exact_match_amended lkBarclays (strL r"barclays bank plc")
      (strL r"barclays bank plc") [rBarclays] 10 (by decide) (by decide) (by decide)
      (by decide) rBarclays (by decide)⟩

/-- Claim C2 (counterexample): the query acme is a substring of the indexed
normalized name acme, which stores two distinct records, yet at threshold
0.9 the search returns only the first record — the second is dropped
because stage 1 deduplicates by the shared original name string. -/
theorem search_substring_counterexample :
    pyIn (normalize (strL r"acme")) (strL r"acme") = true ∧
    (strL r"acme", [racme1, racme2]) ∈ lkacme.name_to_sponsors ∧
    racme1 ≠ racme2 ∧
    search lkacme (strL r"acme") (Rat.divInt 9 10) 10 = [(racme1, 1)] :=
  ⟨by decide, by decide, by decide, by decide⟩

/-- Claim C2 (amended): over a well-formed index (records are stored under
the normalization of their names, keys are normalized and distinct), if the
normalized query occurs in the indexed name M, the records under M have
pairwise distinct original names, the threshold is at most 0.9, and
max_results is large enough to keep the whole result list, then every
record under M is returned with score at least 0.9. -/
theorem search_substring_amended (lk : FastSponsorLookup) (q M : Str) (g : List Sponsor)
    (t : ℚ) (m : ℕ)
    (hWa : ∀ e ∈ lk.name_to_sponsors, ∀ r ∈ e.2, normalize r.name = e.1)
    (hWb : ∀ e ∈ lk.name_to_sponsors, normalize e.1 = e.1)
    (hnd : (lk.name_to_sponsors.map Prod.fst).Nodup)
    (hM : (M, g) ∈ lk.name_to_sponsors)
    (hin : pyIn (normalize q) M = true)
    (_ht : t ≤ Rat.divInt 9 10)
    (hgnd : (g.map Sponsor.name).Nodup)
    (hm : (searchAll lk q t).length ≤ m) :
    ∀ r ∈ g, ∃ sc, (r, sc) ∈ search lk q t m ∧ Rat.divInt 9 10 ≤ sc := by
  intro r hr
  rw [search, take_of_length_le hm]
  by_cases hMq : M = normalize q
  · subst hMq
    have hlk : lookupAssoc lk.name_to_sponsors (normalize q) = some g :=
      mem_lookupAssoc hnd hM
    have hr1 : (stage1Run lk (normalize q)).1 = g.map (fun x => (x, (1 : ℚ))) := by
      rw [stage1Run, hlk]
      show (stage1 g []).1 = _
      rw [stage1_eq hgnd (by simp)]
    refine ⟨1, ?_, by decide⟩
    rw [searchAll]
    refine mem_sortDesc.mpr (List.mem_append.mpr (Or.inl (List.mem_append.mpr (Or.inl ?_))))
    rw [hr1]
    exact List.mem_map.mpr ⟨r, hr, rfl⟩
  · have hseen1 : M ∉ (stage1Run lk (normalize q)).2 := by
      intro hMseen
      rw [stage1Run] at hMseen
      cases hlq : lookupAssoc lk.name_to_sponsors (normalize q) with
      | none =>
        rw [hlq] at hMseen
        simp at hMseen
      | some gq =>
        rw [hlq] at hMseen
        rcases stage1_seen_mem hMseen with h0 | ⟨r2, hr2, hMr2⟩
        · simp at h0
        · have h1 : normalize r2.name = normalize q := hWa _ (lookupAssoc_mem hlq) r2 hr2
          have h2 : normalize M = M := hWb _ hM
          apply hMq
          rw [hMr2, ← h1]
          exact (hMr2 ▸ h2).symm
    have hmem2 : (r, Rat.divInt 9 10) ∈
        (stage2 (normalize q) lk.name_to_sponsors (stage1Run lk (normalize q)).2).1 :=
      stage2_mem_of hM hnd hseen1 hin hr
    refine ⟨Rat.divInt 9 10, ?_, le_refl _⟩
    rw [searchAll]
    exact mem_sortDesc.mpr (List.mem_append.mpr (Or.inl (List.mem_append.mpr (Or.inr hmem2))))

/-- Witness for search_substring_amended: Barclays inside Barclays Bank PLC. -/
theorem search_substring_amended_witness :
    pyIn (normalize (strL r"Barclays")) (strL r"barclays bank plc") = true ∧
    (∃ sc, (rBarclays, sc) ∈ search lkBarclays (strL r"Barclays") (Rat.divInt 1 2) 10 ∧
      Rat.divInt 9 10 ≤ sc) :=
  ⟨by decide,
    search_substring_amended lkBarclays (strL r"Barclays") (strL r"barclays bank plc")
      [rBarclays] (Rat.divInt 1 2) 10 (by decide) (by decide) (by decide) (by decide)
      (by decide) (by decide) (by decide) (by decide) rBarclays (by decide)⟩

/-- Claim C7: deduplicate_results keeps at most one entry per distinct
company name; each kept entry is one of the input entries (its score is
unaltered) and carries the maximum score among the input entries of that
name; and the output is sorted by score descending. -/
theorem deduplicate_results_spec (input : List (Sponsor × ℚ)) :
    ((deduplicate_results input).map (fun p => p.1.name)).Nodup ∧
    (∀ p ∈ deduplicate_results input, p ∈ input ∧
      ∀ q ∈ input, q.1.name = p.1.name → q.2 ≤ p.2) ∧
    List.Pairwise (fun a b => b.2 ≤ a.2) (deduplicate_results input) := by
  have hfold := dedupFold_inv input [] [] (by simp) (by simp) (by simp)
  rw [List.nil_append] at hfold
  obtain ⟨hkeys, hinv⟩ := hfold
  refine ⟨?_, ?_, by rw [deduplicate_results]; exact pairwise_sortDesc _⟩
  · rw [deduplicate_results]
    have hperm :
        ((sortDesc ((input.foldl (fun seen p => dedupUpdate seen p.1.name p) []).map
          Prod.snd)).map (fun p => p.1.name)).Perm
        (((input.foldl (fun seen p => dedupUpdate seen p.1.name p) []).map
          Prod.snd).map (fun p => p.1.name)) :=
      (perm_sortDesc _).map _
    rw [hperm.nodup_iff, List.map_map]
    have heq : (input.foldl (fun seen p => dedupUpdate seen p.1.name p) []).map
        ((fun p => p.1.name) ∘ Prod.snd) =
        (input.foldl (fun seen p => dedupUpdate seen p.1.name p) []).map Prod.fst := by
      apply List.map_congr_left
      intro e he
      exact (hinv e he).1
    rw [heq]
    exact hkeys
  · intro p hp
    rw [deduplicate_results] at hp
    have hp2 := mem_sortDesc.mp hp
    rcases List.mem_map.mp hp2 with ⟨e, he, rfl⟩
    have h := hinv e he
    exact ⟨h.2.1, fun q hq hname => h.2.2 q hq (hname.trans h.1)⟩

end SponsorLookup
